import Mathlib

/-!
Verification development for `docpad-plugintester`.

The embedding covers the two cores of the package:

* the text-normalization and tree-comparison logic of
  `PluginTester.testGenerate` (`source/index.js`), and
* the edition/directory selection logic of the CLI loader
  (`source/bin.js`).

JavaScript strings are modelled as `List Char`; file trees as
association lists from relative path to content; the filesystem seen by
the loader as the list of existing paths.  All definitions are
executable and mirror the source line by line; the few definitions that
model code living outside this repository (the external `editions`
package) or that restate the specification's own wording are marked as
such in their doc comments.
-/

namespace PluginTester

/-! ## JavaScript whitespace and the regex primitives of `index.js`

`index.js` lines 372-374 declare three regexes:
`removeWhitespaceRegex = /\s+/g`, `trimRegex = /^\s+|\s+$/g`,
`removeLineRegex = /\n+/g`. -/

/-- The character class matched by JavaScript's `\s`
(ECMAScript WhiteSpace and LineTerminator code points). -/
def jsWs (c : Char) : Bool :=
  c = ' ' || c = '\t' || c = '\n' || c = '\x0b' || c = '\x0c' || c = '\r' ||
  c = ' ' || c = ' ' || (' ' ≤ c && c ≤ ' ') ||
  c = ' ' || c = ' ' || c = ' ' || c = ' ' ||
  c = '　' || c = '﻿'

/-- Drop the leading run of whitespace (the `^\s+` alternative of `trimRegex`). -/
def lstrip (l : List Char) : List Char := l.dropWhile jsWs

/-- Drop the trailing run of whitespace (the `\s+$` alternative of `trimRegex`). -/
def rstrip (l : List Char) : List Char := (l.reverse.dropWhile jsWs).reverse

/-- `s.replace(trimRegex, '')`: with no multiline flag, `/^\s+|\s+$/g`
removes exactly the leading whitespace run and the trailing whitespace
run of the whole string. -/
def trimEnds (l : List Char) : List Char := rstrip (lstrip l)

/-- `s.replace(removeWhitespaceRegex, '')`: `/\s+/g` deletes every
whitespace character. -/
def removeAllWs (l : List Char) : List Char := l.filter (fun c => !jsWs c)

/-- `s.replace(removeLineRegex, '\n')`: `/\n+/g → '\n'` collapses each
maximal run of newlines to a single newline (a newline directly
followed by another newline is dropped). -/
def collapseNewlines : List Char → List Char
  | [] => []
  | [c] => [c]
  | a :: b :: rest =>
    if a = '\n' && b = '\n' then collapseNewlines (b :: rest)
    else a :: collapseNewlines (b :: rest)

/-- Helper for `s.split('\n')`: returns the first line of the input and
the list of remaining lines. -/
def splitLinesAux : List Char → List Char × List (List Char)
  | [] => ([], [])
  | c :: rest =>
    let r := splitLinesAux rest
    if c = '\n' then ([], r.1 :: r.2) else (c :: r.1, r.2)

/-- `s.split('\n')`: the list of newline-separated lines
(`''.split('\n')` is `['']`, a trailing newline yields a final empty
line, exactly as in JavaScript). -/
def splitLines (s : List Char) : List (List Char) :=
  (splitLinesAux s).1 :: (splitLinesAux s).2

/-- `lines.join('\n')`. -/
def joinLines : List (List Char) → List Char
  | [] => []
  | [l] => l
  | l :: r :: rest => l ++ '\n' :: joinLines (r :: rest)

/-- The `whitespace === 'trim'` branch of `testGenerate`
(`index.js` lines 659-673):
`s.split('\n').map(i => i.replace(trimRegex, '')).join('\n')
  .replace(removeLineRegex, '\n').replace(trimRegex, '')`. -/
def trimNormalize (s : List Char) : List Char :=
  trimEnds (collapseNewlines (joinLines ((splitLines s).map trimEnds)))

/-- The `whitespace` tester-config value: `false`, `'remove'` or
`'trim'` (`index.js` line 386, default `'trim'`). -/
inductive WsMode
  | off
  | remove
  | trim
deriving DecidableEq

/-- The whitespace transform that `testGenerate` applies to each side of
a content comparison (`index.js` lines 652-673).  The legacy
`removeWhitespace` flag is the second argument; the configured
`contentRemoveRegex` is not modelled (treated as unset, its default). -/
def normalizeContent (whitespace : WsMode) (removeWhitespace : Bool)
    (s : List Char) : List Char :=
  if whitespace = WsMode.remove || removeWhitespace then removeAllWs s
  else if whitespace = WsMode.trim then trimNormalize s
  else s

/-- The diagnostic `message` string that `testGenerate` builds alongside
the transforms (`index.js` lines 649-660). -/
def normalizeLabel (whitespace : WsMode) (removeWhitespace : Bool) : String :=
  "content comparison" ++
    (if whitespace = WsMode.remove || removeWhitespace then
      " with whitespace removed"
    else if whitespace = WsMode.trim then " with whitespace trimmed"
    else "")

/-! ### The specification's wording of the trim pipeline

The spec (§4.3, mode `trim`) reads: "split the text into lines; strip
leading and trailing whitespace from each line independently; rejoin
with a single newline; then collapse any remaining run of consecutive
newlines into exactly one newline; finally strip leading/trailing
whitespace from the whole result."  The collapse step is stated
run-wise, so it is defined here run-wise (keep a newline only when the
previous character was not a newline) for comparison with the code's
regex replacement. -/

/-- Run-wise newline collapse as the spec words it; the flag records
whether the previously kept character was a newline. -/
def specCollapseAux : Bool → List Char → List Char
  | _, [] => []
  | prevNl, c :: rest =>
    if c = '\n' then
      if prevNl then specCollapseAux true rest
      else '\n' :: specCollapseAux true rest
    else c :: specCollapseAux false rest

/-- Collapse every run of consecutive newlines into exactly one newline
(spec wording). -/
def specCollapseNewlines (l : List Char) : List Char := specCollapseAux false l

/-- The trim-mode normalization exactly as the spec's §4.3 sentence
composes it. -/
def specTrimComposition (s : List Char) : List Char :=
  trimEnds (specCollapseNewlines (joinLines ((splitLines s).map trimEnds)))

/-! ## The tree comparator of `testGenerate` (`index.js` lines 597-691) -/

/-- A scanned directory tree: relative path ↦ file content, in scan
order (the shape `balUtil.scanlist` produces). -/
abbrev FileTree := List (String × List Char)

/-- One registered `same file content for: <key>` test
(`index.js` lines 645-684): the key, the normalized actual content, the
normalized expected content (`none` when the key is absent from the
expected tree, where `outExpectedResults[key]` is `undefined`), and the
diagnostic message. -/
structure ContentEntry where
  key : String
  actualNorm : List Char
  expectedNorm : Option (List Char)
  label : String
deriving DecidableEq

/-- The content-comparison tests registered by `testGenerate`: one per
element of `outResultsKeys` (the keys of the **actual** output tree,
`index.js` line 644), each normalizing `outResults[key]` and
`outExpectedResults[key]` with the same configuration. -/
def contentEntries (whitespace : WsMode) (removeWhitespace : Bool)
    (actual expected : FileTree) : List ContentEntry :=
  (actual.map Prod.fst).map fun k =>
    ⟨k,
     normalizeContent whitespace removeWhitespace ((actual.lookup k).getD []),
     (expected.lookup k).map (normalizeContent whitespace removeWhitespace),
     normalizeLabel whitespace removeWhitespace⟩

/-- `underscore.difference(a, b)`: the elements of `a` not present in
`b`, in `a`'s order. -/
def diffKeys (a b : List String) : List String :=
  a.filter (fun k => !b.contains k)

/-- Outcome of the single `same files` test (`index.js` lines 622-641).
`assert-helpers`' `deepEqual` throws on the first failed assertion, so
when the first difference list is non-empty the second is never
computed or reported. -/
inductive SameFilesResult
  | pass
  | failMissing (missing : List String)
  | failExtra (extra : List String)
deriving DecidableEq

/-- The `same files` test body: assert
`difference(outExpectedResultsKeys, outResultsKeys) == []`
("should have been generated"), then — only if that passed — assert
`difference(outResultsKeys, outExpectedResultsKeys) == []`
("should not have been generated"). -/
def sameFilesCheck (actualKeys expectedKeys : List String) : SameFilesResult :=
  if (diffKeys expectedKeys actualKeys).isEmpty then
    if (diffKeys actualKeys expectedKeys).isEmpty then SameFilesResult.pass
    else SameFilesResult.failExtra (diffKeys actualKeys expectedKeys)
  else SameFilesResult.failMissing (diffKeys expectedKeys actualKeys)

/-- Outcome of the `results` suite of `testGenerate`. -/
inductive GenerateOutcome
  | skipped
  | ioError (e : String)
  | completed (sameFiles : SameFilesResult) (contents : List ContentEntry)
deriving DecidableEq

/-- The `results` suite (`index.js` lines 597-691): if
`outExpectedPath` does not exist the suite warns and completes with no
checks; otherwise `outPath` and `outExpectedPath` are scanned (either
scan error aborts via `done(err)`) and the file-set and per-file
content checks run.  The two scan arguments stand for what
`balUtil.scanlist` would deliver for each root. -/
def generateResults (expectedExists : Bool) (whitespace : WsMode)
    (removeWhitespace : Bool)
    (scanActual scanExpected : Except String FileTree) : GenerateOutcome :=
  if expectedExists = false then GenerateOutcome.skipped
  else
    match scanActual with
    | Except.error e => GenerateOutcome.ioError e
    | Except.ok outResults =>
      match scanExpected with
      | Except.error e => GenerateOutcome.ioError e
      | Except.ok outExpectedResults =>
        GenerateOutcome.completed
          (sameFilesCheck (outResults.map Prod.fst)
            (outExpectedResults.map Prod.fst))
          (contentEntries whitespace removeWhitespace
            outResults outExpectedResults)

/-! ## The CLI loader (`source/bin.js`) -/

/-- One entry of `pkg.editions`.  `engines` maps a runtime-capability
name to its required minimum version; this repository never parses the
ranges itself (that happens in the external `editions` package), and
the spec (§3, §9) describes them as minimum language-level supports, so
a requirement is modelled as a minimum version number. -/
structure EditionDescriptor where
  directory : String
  entry : String
  engines : List (String × Nat)
deriving DecidableEq

/-- Modelled from the spec: satisfaction of one engine requirement
(§4.1 step 3) — "a requirement not present in the runtime capability
set is treated as unsatisfied"; otherwise the runtime's version must
meet the requirement. -/
def engineSatisfied (caps : List (String × Nat)) (req : String × Nat) : Bool :=
  match caps.lookup req.1 with
  | some v => req.2 ≤ v
  | none => false

/-- Modelled from the spec: a candidate edition is satisfied when every
declared engine requirement is satisfied (§4.1 step 3); an empty
`engines` map is always satisfied (§4.1 edge cases). -/
def editionSatisfied (caps : List (String × Nat)) (e : EditionDescriptor) : Bool :=
  e.engines.all (engineSatisfied caps)

/-- Modelled from the spec: `editions.determineEdition` of the external
`editions` package, called by `bin.js` line 43 but not part of this
repository.  Per §4.1 step 3 it evaluates the candidates in the order
they appear in the manifest and picks the first satisfied one
(first-match, not best-match); `none` models its
`NoValidEditionError`. -/
def determineEdition (eds : List EditionDescriptor)
    (caps : List (String × Nat)) : Option EditionDescriptor :=
  eds.find? (editionSatisfied caps)

/-- The fields of `package.json` that `bin.js` reads. -/
structure Pkg where
  main : Option String
  editions : Option (List EditionDescriptor)

/-- The two failures the loader can raise while selecting: no
`package.json` (`bin.js` lines 27-30), or `determineEdition` finding no
satisfied edition. -/
inductive LoadError
  | notAPlugin
  | noValidEdition
deriving DecidableEq

/-- What the loader has selected after `bin.js` line 51: the directory,
the entry (still `pkg.main`'s optional value outside the editions
branch), and the resolved main path (`''` when `resolve` found
nothing). -/
structure Selection where
  directory : String
  entry : Option String
  main : String
deriving DecidableEq

/-- `pathUtil.resolve(...segs)` for already-normalized segments: join
with `/`. -/
def joinPath (segs : List String) : String := String.intercalate "/" segs

/-- `resolve(...paths)` of `bin.js` lines 15-19: any falsy segment
yields `''`; otherwise the joined path is returned exactly when it
exists, else `''`.  The `fs` argument lists the paths that exist. -/
def resolvePath (fs : List String) (segs : List String) : String :=
  if segs.any (fun p => p = "") then ""
  else
    let path := joinPath segs
    if fs.contains path then path else ""

/-- The Path Resolver as the spec's §4.2 words it: probe the joined
path as-is, then with `"." + extension` appended for each extension in
the given order, returning the first existing candidate, else "not
found" (`''`). -/
def specResolve (fs : List String) (segs : List String)
    (exts : List String) : String :=
  if segs.any (fun p => p = "") then ""
  else
    let path := joinPath segs
    if fs.contains path then path
    else
      match exts.find? (fun e => fs.contains (path ++ "." ++ e)) with
      | some e => path ++ "." ++ e
      | none => ""

/-- The selection phase of `loader()` (`bin.js` lines 25-51):
require a `package.json`; resolve the optional
`edition=`/`directory=` CLI hint against `cwd`; without editions use
the hint directory or fall back to `cwd`; with editions and no resolved
hint call `determineEdition`; with editions and a resolved hint use the
hint directory as-is.  `entry` starts as `pkg.main` and is overwritten
only by auto-detection. -/
def loader (fs : List String) (cwd : String) (hint : Option String)
    (caps : List (String × Nat)) (pkg : Pkg) : Except LoadError Selection :=
  if resolvePath fs [cwd, "package.json"] = "" then Except.error LoadError.notAPlugin
  else
    match pkg.editions with
    | none =>
      if resolvePath fs [cwd, hint.getD ""] = "" then
        Except.ok ⟨cwd, pkg.main, resolvePath fs [cwd, pkg.main.getD ""]⟩
      else
        Except.ok ⟨resolvePath fs [cwd, hint.getD ""], pkg.main,
          resolvePath fs [resolvePath fs [cwd, hint.getD ""], pkg.main.getD ""]⟩
    | some eds =>
      if resolvePath fs [cwd, hint.getD ""] = "" then
        match determineEdition eds caps with
        | none => Except.error LoadError.noValidEdition
        | some e =>
          Except.ok ⟨e.directory, some e.entry,
            resolvePath fs [e.directory, e.entry]⟩
      else
        Except.ok ⟨resolvePath fs [cwd, hint.getD ""], pkg.main,
          resolvePath fs [resolvePath fs [cwd, hint.getD ""], pkg.main.getD ""]⟩

/-! ## Groundwork lemmas on the string primitives -/

theorem jsWs_nl : jsWs '\n' = true := by decide

theorem length_lstrip_le (l : List Char) : (lstrip l).length ≤ l.length :=
  (List.dropWhile_sublist jsWs).length_le

theorem length_rstrip_le (l : List Char) : (rstrip l).length ≤ l.length := by
  have := (List.dropWhile_sublist (l := l.reverse) jsWs).length_le
  simpa [rstrip] using this

theorem lstrip_cons_ws {c : Char} (h : jsWs c = true) (t : List Char) :
    lstrip (c :: t) = lstrip t := by
  simp [lstrip, List.dropWhile_cons, h]

theorem lstrip_cons_not_ws {c : Char} (h : jsWs c = false) (t : List Char) :
    lstrip (c :: t) = c :: t := by
  simp [lstrip, List.dropWhile_cons, h]

theorem rstrip_append (x y : List Char) :
    rstrip (x ++ y) = if rstrip y = [] then rstrip x else x ++ rstrip y := by
  have hiff : rstrip y = [] ↔ y.reverse.dropWhile jsWs = [] := by
    unfold rstrip
    exact List.reverse_eq_nil_iff
  by_cases hy : rstrip y = []
  · have h2 : y.reverse.dropWhile jsWs = [] := hiff.mp hy
    rw [if_pos hy]
    unfold rstrip
    rw [List.reverse_append, List.dropWhile_append, if_pos (by simp [h2])]
  · have h2 : ¬ y.reverse.dropWhile jsWs = [] := fun e => hy (hiff.mpr e)
    rw [if_neg hy]
    unfold rstrip
    rw [List.reverse_append, List.dropWhile_append,
      if_neg (by simpa [List.isEmpty_iff] using h2)]
    rw [List.reverse_append, List.reverse_reverse]

theorem trimEnds_fixed_head {c : Char} {t : List Char}
    (h : trimEnds (c :: t) = c :: t) : jsWs c = false := by
  by_cases hc : jsWs c = true
  · exfalso
    have h1 : lstrip (c :: t) = lstrip t := lstrip_cons_ws hc t
    have hlen : (trimEnds (c :: t)).length ≤ t.length := by
      unfold trimEnds
      rw [h1]
      exact le_trans (length_rstrip_le _) (length_lstrip_le t)
    rw [h] at hlen
    simp at hlen
  · simpa using hc

theorem lstrip_of_trimEnds_fixed {l : List Char} (h : trimEnds l = l) :
    lstrip l = l := by
  cases l with
  | nil => rfl
  | cons c t => exact lstrip_cons_not_ws (trimEnds_fixed_head h) t

theorem rstrip_of_trimEnds_fixed {l : List Char} (h : trimEnds l = l) :
    rstrip l = l := by
  have h1 := lstrip_of_trimEnds_fixed h
  calc rstrip l = rstrip (lstrip l) := by rw [h1]
    _ = trimEnds l := rfl
    _ = l := h

theorem dropWhile_jsWs_idem (l : List Char) :
    (l.dropWhile jsWs).dropWhile jsWs = l.dropWhile jsWs := by
  induction l with
  | nil => rfl
  | cons c t ih =>
    by_cases hc : jsWs c = true
    · simp [List.dropWhile_cons, hc, ih]
    · simp at hc
      simp [List.dropWhile_cons, hc]

theorem head_lstrip_not_ws {l : List Char} {c : Char} {t : List Char}
    (h : lstrip l = c :: t) : jsWs c = false := by
  induction l with
  | nil => exact absurd h (by simp [lstrip])
  | cons a r ih =>
    by_cases ha : jsWs a = true
    · rw [lstrip_cons_ws ha] at h
      exact ih h
    · have ha2 : jsWs a = false := by simpa using ha
      rw [lstrip_cons_not_ws ha2] at h
      injection h with h1 h2
      rw [← h1]
      exact ha2

theorem rstrip_cons_of_head {c : Char} (h : jsWs c = false) (t : List Char) :
    ∃ u, rstrip (c :: t) = c :: u := by
  have e : (c :: t : List Char) = [c] ++ t := rfl
  rw [e, rstrip_append]
  by_cases ht : rstrip t = []
  · refine ⟨[], ?_⟩
    rw [if_pos ht]
    simp [rstrip, List.dropWhile_cons, h]
  · refine ⟨rstrip t, ?_⟩
    rw [if_neg ht]
    rfl

theorem trimEnds_idem (l : List Char) : trimEnds (trimEnds l) = trimEnds l := by
  unfold trimEnds
  rcases hz : lstrip l with _ | ⟨c, t⟩
  · simp [rstrip, lstrip]
  · have hc : jsWs c = false := head_lstrip_not_ws hz
    obtain ⟨u, hu⟩ := rstrip_cons_of_head hc t
    rw [hu, lstrip_cons_not_ws hc u, ← hu]
    have : rstrip (rstrip (c :: t)) = rstrip (c :: t) := by
      simp [rstrip, List.reverse_reverse, dropWhile_jsWs_idem]
    exact this

theorem not_mem_lstrip {l : List Char} {c : Char} (h : c ∉ l) : c ∉ lstrip l :=
  fun hm => h ((List.dropWhile_sublist jsWs).subset hm)

theorem not_mem_rstrip {l : List Char} {c : Char} (h : c ∉ l) : c ∉ rstrip l := by
  intro hm
  apply h
  rw [← List.mem_reverse]
  exact (List.dropWhile_sublist jsWs).subset (by simpa [rstrip] using hm)

theorem not_mem_trimEnds {l : List Char} {c : Char} (h : c ∉ l) :
    c ∉ trimEnds l :=
  not_mem_rstrip (not_mem_lstrip h)

/-! ## Groundwork lemmas on `collapseNewlines` -/

theorem collapse_cons_of_ne {c : Char} (h : ¬ c = '\n') (y : List Char) :
    collapseNewlines (c :: y) = c :: collapseNewlines y := by
  cases y with
  | nil => rfl
  | cons b t => simp [collapseNewlines, h]

theorem collapse_nl_nl (t : List Char) :
    collapseNewlines ('\n' :: '\n' :: t) = collapseNewlines ('\n' :: t) := by
  simp [collapseNewlines]

theorem collapse_append_of_nlfree {l : List Char} (h : '\n' ∉ l) (x : List Char) :
    collapseNewlines (l ++ x) = l ++ collapseNewlines x := by
  induction l with
  | nil => simp
  | cons c t ih =>
    have hc : ¬ c = '\n' := fun e => h (by rw [e]; exact List.mem_cons_self '\n' t)
    have ht : '\n' ∉ t := fun hm => h (List.mem_cons_of_mem _ hm)
    calc collapseNewlines ((c :: t) ++ x)
        = collapseNewlines (c :: (t ++ x)) := rfl
      _ = c :: collapseNewlines (t ++ x) := collapse_cons_of_ne hc _
      _ = c :: (t ++ collapseNewlines x) := by rw [ih ht]
      _ = (c :: t) ++ collapseNewlines x := rfl

theorem collapse_of_nlfree {l : List Char} (h : '\n' ∉ l) :
    collapseNewlines l = l := by
  have := collapse_append_of_nlfree h []
  simpa [collapseNewlines] using this

theorem collapse_nl (x : List Char) :
    collapseNewlines ('\n' :: x) =
      '\n' :: collapseNewlines (x.dropWhile (fun c => c = '\n')) := by
  induction x with
  | nil => rfl
  | cons b t ih =>
    by_cases hb : b = '\n'
    · subst hb
      rw [collapse_nl_nl, ih]
      simp [List.dropWhile_cons]
    · have h1 : collapseNewlines ('\n' :: b :: t) = '\n' :: collapseNewlines (b :: t) := by
        simp [collapseNewlines, hb]
      rw [h1]
      simp [List.dropWhile_cons, hb]

theorem trimEnds_collapse_nl (x : List Char) :
    trimEnds (collapseNewlines ('\n' :: x)) = trimEnds (collapseNewlines x) := by
  cases x with
  | nil => rfl
  | cons b t =>
    by_cases hb : b = '\n'
    · subst hb
      rw [collapse_nl_nl]
    · have h1 : collapseNewlines ('\n' :: b :: t) = '\n' :: collapseNewlines (b :: t) := by
        simp [collapseNewlines, hb]
      rw [h1]
      unfold trimEnds
      rw [lstrip_cons_ws jsWs_nl]

/-! ## Groundwork lemmas on `splitLines` and `joinLines` -/

theorem splitLines_pieces_nlfree (s : List Char) :
    '\n' ∉ (splitLinesAux s).1 ∧ ∀ p ∈ (splitLinesAux s).2, '\n' ∉ p := by
  induction s with
  | nil => simp [splitLinesAux]
  | cons c rest ih =>
    by_cases hc : c = '\n'
    · subst hc
      simp only [splitLinesAux, if_pos rfl]
      refine ⟨by simp, ?_⟩
      intro p hp
      rcases List.mem_cons.mp hp with h | h
      · rw [h]; exact ih.1
      · exact ih.2 p h
    · simp only [splitLinesAux, if_neg hc]
      refine ⟨?_, ih.2⟩
      intro hm
      rcases List.mem_cons.mp hm with h | h
      · exact hc h.symm
      · exact ih.1 h

theorem splitLinesAux_append_of_nlfree {p : List Char} (h : '\n' ∉ p)
    (x : List Char) :
    splitLinesAux (p ++ x) = (p ++ (splitLinesAux x).1, (splitLinesAux x).2) := by
  induction p with
  | nil => simp
  | cons c t ih =>
    have hc : ¬ c = '\n' := fun e => h (by rw [e]; exact List.mem_cons_self '\n' t)
    have ht : '\n' ∉ t := fun hm => h (List.mem_cons_of_mem _ hm)
    simp [splitLinesAux, ih ht, hc]

theorem splitLines_append_nl {p : List Char} (h : '\n' ∉ p) (y : List Char) :
    splitLines (p ++ '\n' :: y) = p :: splitLines y := by
  unfold splitLines
  rw [splitLinesAux_append_of_nlfree h]
  simp [splitLinesAux]

theorem splitLines_of_nlfree {p : List Char} (h : '\n' ∉ p) :
    splitLines p = [p] := by
  unfold splitLines
  have := splitLinesAux_append_of_nlfree h []
  simp only [List.append_nil] at this
  rw [this]
  simp [splitLinesAux]

theorem joinLines_cons_cons (l r : List Char) (rest : List (List Char)) :
    joinLines (l :: r :: rest) = l ++ '\n' :: joinLines (r :: rest) := rfl

theorem joinLines_eq_nil_iff {ls : List (List Char)} (h : ∀ l ∈ ls, l ≠ []) :
    joinLines ls = [] ↔ ls = [] := by
  cases ls with
  | nil => simp [joinLines]
  | cons l rest =>
    cases rest with
    | nil =>
      simp only [joinLines]
      have := h l (List.mem_cons_self l [])
      simp [this]
    | cons r rest2 =>
      rw [joinLines_cons_cons]
      simp

theorem splitLines_joinLines {ls : List (List Char)} (hne : ls ≠ [])
    (h : ∀ l ∈ ls, '\n' ∉ l) : splitLines (joinLines ls) = ls := by
  induction ls with
  | nil => exact absurd rfl hne
  | cons l rest ih =>
    cases rest with
    | nil => exact splitLines_of_nlfree (h l (List.mem_cons_self l []))
    | cons r rest2 =>
      rw [joinLines_cons_cons]
      rw [splitLines_append_nl (h l (List.mem_cons_self l _))]
      rw [ih (by simp) (fun x hx => h x (List.mem_cons_of_mem _ hx))]

theorem map_of_fixed {ls : List (List Char)} {f : List Char → List Char}
    (h : ∀ l ∈ ls, f l = l) : ls.map f = ls := by
  induction ls with
  | nil => rfl
  | cons l rest ih =>
    simp only [List.map_cons]
    rw [h l (List.mem_cons_self l rest), ih (fun x hx => h x (List.mem_cons_of_mem _ hx))]

/-! ## The canonical form of the trim pipeline

`trimNormalize` equals "join the non-empty stripped lines with single
newlines", which makes idempotence transparent. -/

theorem rstrip_nl_cons {l : List Char} (hl : rstrip l = l) (hne : l ≠ []) :
    rstrip ('\n' :: l) = '\n' :: l := by
  have e : ('\n' :: l : List Char) = ['\n'] ++ l := rfl
  rw [e, rstrip_append, if_neg (by rw [hl]; exact hne), hl]

theorem filter_all_ne (ls : List (List Char)) :
    ∀ x ∈ ls.filter (fun l => !l.isEmpty), x ≠ [] := by
  intro x hx
  have := (List.mem_filter.mp hx).2
  simpa using this

theorem joinFilter_eq_nil_iff (ls : List (List Char)) :
    joinLines (ls.filter (fun l => !l.isEmpty)) = [] ↔
      ls.filter (fun l => !l.isEmpty) = [] :=
  joinLines_eq_nil_iff (filter_all_ne ls)

theorem rstrip_collapse_nl_join (ls : List (List Char))
    (h : ∀ l ∈ ls, '\n' ∉ l ∧ trimEnds l = l) :
    rstrip (collapseNewlines ('\n' :: joinLines ls)) =
      if joinLines (ls.filter (fun l => !l.isEmpty)) = [] then []
      else '\n' :: joinLines (ls.filter (fun l => !l.isEmpty)) := by
  induction ls with
  | nil => decide
  | cons l rest ih =>
    have hl := h l (List.mem_cons_self l rest)
    have hrest : ∀ x ∈ rest, '\n' ∉ x ∧ trimEnds x = x :=
      fun x hx => h x (List.mem_cons_of_mem _ hx)
    have IH := ih hrest
    cases rest with
    | nil =>
      by_cases hle : l = []
      · subst hle
        decide
      · obtain ⟨c, t, rfl⟩ := List.exists_cons_of_ne_nil hle
        have hc : jsWs c = false := trimEnds_fixed_head hl.2
        have hcn : ¬ c = '\n' := by
          intro e
          rw [e, jsWs_nl] at hc
          exact Bool.noConfusion hc
        have hcol : collapseNewlines ('\n' :: joinLines [c :: t]) = '\n' :: (c :: t) := by
          calc collapseNewlines ('\n' :: c :: t)
              = '\n' :: collapseNewlines (c :: t) := by simp [collapseNewlines, hcn]
            _ = '\n' :: (c :: t) := by rw [collapse_of_nlfree hl.1]
        rw [hcol]
        have hr : rstrip (c :: t) = c :: t := rstrip_of_trimEnds_fixed hl.2
        rw [rstrip_nl_cons hr (by simp)]
        simp [List.filter_cons, joinLines]
    | cons r rest2 =>
      by_cases hle : l = []
      · subst hle
        rw [joinLines_cons_cons]
        simp only [List.nil_append]
        rw [collapse_nl_nl, IH]
        simp [List.filter_cons]
      · obtain ⟨c, t, rfl⟩ := List.exists_cons_of_ne_nil hle
        have hc : jsWs c = false := trimEnds_fixed_head hl.2
        have hcn : ¬ c = '\n' := by
          intro e
          rw [e, jsWs_nl] at hc
          exact Bool.noConfusion hc
        rw [joinLines_cons_cons]
        have hstep :
            collapseNewlines ('\n' :: ((c :: t) ++ '\n' :: joinLines (r :: rest2)))
              = ('\n' :: c :: t) ++
                  collapseNewlines ('\n' :: joinLines (r :: rest2)) := by
          calc collapseNewlines ('\n' :: c :: (t ++ '\n' :: joinLines (r :: rest2)))
              = '\n' :: collapseNewlines (c :: (t ++ '\n' :: joinLines (r :: rest2))) := by
                simp [collapseNewlines, hcn]
            _ = '\n' :: collapseNewlines ((c :: t) ++ '\n' :: joinLines (r :: rest2)) := rfl
            _ = '\n' :: ((c :: t) ++ collapseNewlines ('\n' :: joinLines (r :: rest2))) := by
                rw [collapse_append_of_nlfree hl.1]
            _ = ('\n' :: c :: t) ++ collapseNewlines ('\n' :: joinLines (r :: rest2)) := rfl
        rw [hstep, rstrip_append, IH]
        by_cases hF : joinLines ((r :: rest2).filter (fun l => !l.isEmpty)) = []
        · have hfil : (r :: rest2).filter (fun l => !l.isEmpty) = [] :=
            (joinFilter_eq_nil_iff _).mp hF
          have hr : rstrip (c :: t) = c :: t := rstrip_of_trimEnds_fixed hl.2
          have hrs : rstrip ('\n' :: c :: t) = '\n' :: c :: t :=
            rstrip_nl_cons hr (by simp)
          simp [hF, hfil, List.filter_cons, hrs, joinLines]
        · obtain ⟨q, qs, hq⟩ :=
            List.exists_cons_of_ne_nil
              (fun e => hF (by rw [e]; rfl) :
                (r :: rest2).filter (fun l => !l.isEmpty) ≠ [])
          have hF2 : ¬ joinLines (q :: qs) = [] := by
            rw [← hq]
            exact hF
          simp [hF, hF2, List.filter_cons, hq, joinLines_cons_cons]

theorem trimEnds_collapse_join (ls : List (List Char))
    (h : ∀ l ∈ ls, '\n' ∉ l ∧ trimEnds l = l) :
    trimEnds (collapseNewlines (joinLines ls)) =
      joinLines (ls.filter (fun l => !l.isEmpty)) := by
  induction ls with
  | nil => rfl
  | cons l rest ih =>
    have hl := h l (List.mem_cons_self l rest)
    have hrest : ∀ x ∈ rest, '\n' ∉ x ∧ trimEnds x = x :=
      fun x hx => h x (List.mem_cons_of_mem _ hx)
    have IH := ih hrest
    cases rest with
    | nil =>
      by_cases hle : l = []
      · subst hle
        decide
      · calc trimEnds (collapseNewlines (joinLines [l]))
            = trimEnds l := by rw [show joinLines [l] = l from rfl, collapse_of_nlfree hl.1]
          _ = l := hl.2
          _ = joinLines ([l].filter (fun x => !x.isEmpty)) := by
              simp [List.filter_cons, hle, joinLines]
    | cons r rest2 =>
      by_cases hle : l = []
      · subst hle
        rw [joinLines_cons_cons]
        simp only [List.nil_append]
        rw [trimEnds_collapse_nl, IH]
        simp [List.filter_cons]
      · obtain ⟨c, t, rfl⟩ := List.exists_cons_of_ne_nil hle
        have hc : jsWs c = false := trimEnds_fixed_head hl.2
        rw [joinLines_cons_cons, collapse_append_of_nlfree hl.1]
        have h1 : trimEnds ((c :: t) ++ collapseNewlines ('\n' :: joinLines (r :: rest2)))
            = rstrip ((c :: t) ++ collapseNewlines ('\n' :: joinLines (r :: rest2))) := by
          unfold trimEnds
          rw [show ((c :: t) ++ collapseNewlines ('\n' :: joinLines (r :: rest2)) : List Char)
              = c :: (t ++ collapseNewlines ('\n' :: joinLines (r :: rest2))) from rfl]
          rw [lstrip_cons_not_ws hc]
        rw [h1, rstrip_append, rstrip_collapse_nl_join (r :: rest2) hrest]
        by_cases hF : joinLines ((r :: rest2).filter (fun l => !l.isEmpty)) = []
        · have hfil : (r :: rest2).filter (fun l => !l.isEmpty) = [] :=
            (joinFilter_eq_nil_iff _).mp hF
          have hr : rstrip (c :: t) = c :: t := rstrip_of_trimEnds_fixed hl.2
          simp [hF, hfil, List.filter_cons, hr, joinLines]
        · obtain ⟨q, qs, hq⟩ :=
            List.exists_cons_of_ne_nil
              (fun e => hF (by rw [e]; rfl) :
                (r :: rest2).filter (fun l => !l.isEmpty) ≠ [])
          have hF2 : ¬ joinLines (q :: qs) = [] := by
            rw [← hq]
            exact hF
          simp [hF, hF2, List.filter_cons, hq, joinLines_cons_cons]

theorem mem_splitLines_nlfree {s p : List Char} (hp : p ∈ splitLines s) :
    '\n' ∉ p := by
  have h := splitLines_pieces_nlfree s
  rcases List.mem_cons.mp hp with e | hm
  · rw [e]
    exact h.1
  · exact h.2 p hm

theorem trimNormalize_canonical (s : List Char) :
    trimNormalize s =
      joinLines (((splitLines s).map trimEnds).filter (fun l => !l.isEmpty)) := by
  unfold trimNormalize
  apply trimEnds_collapse_join
  intro l hl
  obtain ⟨p, hp, rfl⟩ := List.mem_map.mp hl
  exact ⟨not_mem_trimEnds (mem_splitLines_nlfree hp), trimEnds_idem p⟩

theorem trimNormalize_idem (s : List Char) :
    trimNormalize (trimNormalize s) = trimNormalize s := by
  have hcanon := trimNormalize_canonical s
  set lns := ((splitLines s).map trimEnds).filter (fun l => !l.isEmpty) with hlns
  have helem : ∀ l ∈ lns, ('\n' ∉ l ∧ trimEnds l = l) ∧ l ≠ [] := by
    intro l hl
    have h2 := List.mem_filter.mp hl
    obtain ⟨p, hp, rfl⟩ := List.mem_map.mp h2.1
    refine ⟨⟨not_mem_trimEnds (mem_splitLines_nlfree hp), trimEnds_idem p⟩, ?_⟩
    simpa using h2.2
  by_cases hnil : lns = []
  · rw [hcanon, hnil]
    decide
  · rw [hcanon]
    unfold trimNormalize
    rw [splitLines_joinLines hnil (fun l hl => (helem l hl).1.1)]
    rw [map_of_fixed (fun l hl => (helem l hl).1.2)]
    rw [trimEnds_collapse_join lns (fun l hl => (helem l hl).1)]
    rw [List.filter_eq_self.mpr (fun a ha => by simpa using (helem a ha).2)]

/-! ## The code's newline collapse equals the spec's run-wise collapse -/

theorem specCollapseAux_eq (l : List Char) :
    specCollapseAux false l = collapseNewlines l ∧
    specCollapseAux true l = collapseNewlines (l.dropWhile (fun c => c = '\n')) := by
  induction l with
  | nil => exact ⟨rfl, rfl⟩
  | cons c t ih =>
    by_cases hc : c = '\n'
    · subst hc
      constructor
      · rw [collapse_nl]
        simp [specCollapseAux, ih.2]
      · simp [specCollapseAux, List.dropWhile_cons, ih.2]
    · constructor
      · simp [specCollapseAux, hc, ih.1, collapse_cons_of_ne hc]
      · simp [specCollapseAux, hc, ih.1, List.dropWhile_cons, collapse_cons_of_ne hc]

/-! ## Remaining helper lemmas for the claim theorems -/

theorem removeAllWs_idem (s : List Char) :
    removeAllWs (removeAllWs s) = removeAllWs s := by
  unfold removeAllWs
  induction s with
  | nil => rfl
  | cons c t ih =>
    by_cases hc : jsWs c = true
    · simp [List.filter_cons, hc, ih]
    · have hc2 : jsWs c = false := by simpa using hc
      simp [List.filter_cons, hc2, ih]

theorem find?_first {α : Type} (p : α → Bool) (pre : List α) (e : α)
    (post : List α) (he : p e = true) (hpre : ∀ x ∈ pre, p x = false) :
    (pre ++ e :: post).find? p = some e := by
  induction pre with
  | nil => simp [List.find?_cons_of_pos, he]
  | cons a pre2 ih =>
    have ha := hpre a (List.mem_cons_self a pre2)
    rw [List.cons_append, List.find?_cons_of_neg _ (by simp [ha])]
    exact ih (fun x hx => hpre x (List.mem_cons_of_mem _ hx))

theorem determineEdition_append (caps : List (String × Nat))
    (pre : List EditionDescriptor) (e : EditionDescriptor)
    (post : List EditionDescriptor) (he : editionSatisfied caps e = true)
    (hpre : ∀ x ∈ pre, editionSatisfied caps x = false) :
    determineEdition (pre ++ e :: post) caps = some e := by
  unfold determineEdition
  exact find?_first _ pre e post he hpre

theorem resolvePath_none_hint (fs : List String) (cwd : String) :
    resolvePath fs [cwd, ""] = "" := by
  simp [resolvePath]

/-! ## Claim theorems -/

/-- C1: for every manifest whose editions list contains a satisfied
candidate and no explicit edition hint, the loader selects the first
candidate (in declared order) all of whose engine requirements are met
by the runtime capabilities, even when later candidates are also
satisfied (first-match, not best-match). -/
theorem selectEdition_first_match (fs : List String) (cwd : String)
    (caps : List (String × Nat)) (pkg : Pkg)
    (pre post : List EditionDescriptor) (e : EditionDescriptor)
    (hpkg : resolvePath fs [cwd, "package.json"] ≠ "")
    (heds : pkg.editions = some (pre ++ e :: post))
    (he : editionSatisfied caps e = true)
    (hpre : ∀ x ∈ pre, editionSatisfied caps x = false) :
    loader fs cwd none caps pkg =
      Except.ok ⟨e.directory, some e.entry, resolvePath fs [e.directory, e.entry]⟩ := by
  simp [loader, hpkg, heds, resolvePath_none_hint,
    determineEdition_append caps pre e post he hpre]

/-- Witness for C1: the spec's own example — editions
`[node8 (node ≥ 8), node10 (node ≥ 10)]` with runtime `node = 12`
selects `node8` although `node10` is also satisfied. -/
theorem selectEdition_first_match_witness :
    resolvePath ["pkg/package.json"] ["pkg", "package.json"] ≠ "" ∧
    editionSatisfied [("node", 12)] ⟨"node10", "index.js", [("node", 10)]⟩ = true ∧
    loader ["pkg/package.json"] "pkg" none [("node", 12)]
        ⟨some "index.js", some [⟨"node8", "index.js", [("node", 8)]⟩,
          ⟨"node10", "index.js", [("node", 10)]⟩]⟩ =
      Except.ok ⟨"node8", some "index.js",
        resolvePath ["pkg/package.json"] ["node8", "index.js"]⟩ :=
  ⟨by decide, by decide,
    selectEdition_first_match ["pkg/package.json"] "pkg" [("node", 12)]
      ⟨some "index.js", some [⟨"node8", "index.js", [("node", 8)]⟩,
        ⟨"node10", "index.js", [("node", 10)]⟩]⟩
      [] [⟨"node10", "index.js", [("node", 10)]⟩]
      ⟨"node8", "index.js", [("node", 8)]⟩
      (by decide) rfl (by decide) (by decide)⟩

/-- C2: trim-mode normalization equals the spec's composition — split
into lines, strip each line, rejoin with single newlines, collapse
every run of consecutive newlines into exactly one newline, strip the
whole result. -/
theorem trim_matches_spec_composition (s : List Char) :
    trimNormalize s = specTrimComposition s := by
  unfold trimNormalize specTrimComposition specCollapseNewlines
  rw [(specCollapseAux_eq (joinLines ((splitLines s).map trimEnds))).1]

/-- C3: normalization is idempotent (a projection) for whitespace mode
remove and for whitespace mode trim. -/
theorem normalize_idempotent (ws : WsMode) (rm : Bool) (s : List Char)
    (h : ws = WsMode.remove ∨ ws = WsMode.trim) :
    normalizeContent ws rm (normalizeContent ws rm s) =
      normalizeContent ws rm s := by
  rcases h with h | h
  · subst h
    simp [normalizeContent, removeAllWs_idem]
  · subst h
    cases rm with
    | true => simp [normalizeContent, removeAllWs_idem]
    | false => simp [normalizeContent, trimNormalize_idem]

/-- Witness for C3: idempotence at mode trim on a concrete string. -/
theorem normalize_idempotent_witness :
    (WsMode.trim = WsMode.remove ∨ WsMode.trim = WsMode.trim) ∧
    normalizeContent WsMode.trim false
        (normalizeContent WsMode.trim false "  a \n\n b ".toList) =
      normalizeContent WsMode.trim false "  a \n\n b ".toList :=
  ⟨Or.inr rfl,
    normalize_idempotent WsMode.trim false "  a \n\n b ".toList (Or.inr rfl)⟩

/-- C4 counterexample: a key present only in the actual tree still
produces a content-comparison entry (the code iterates the actual
tree's keys, not the intersection), refuting "content comparison is
performed exactly for the keys present in both trees". -/
theorem contentEntries_actual_only_key_cex :
    contentEntries WsMode.trim false [("b.txt", ['x'])] [] =
      [⟨"b.txt", ['x'], none, "content comparison with whitespace trimmed"⟩] ∧
    (([] : FileTree).map Prod.fst).contains "b.txt" = false :=
  ⟨rfl, rfl⟩

/-- C4 (amended): content comparison is performed exactly for the keys
of the actual tree; each entry normalizes both looked-up contents with
the identical configuration and carries the label of the normalization
applied; keys present only in the expected tree produce no entry, while
keys present only in the actual tree produce an entry whose expected
side is absent. -/
theorem contentEntries_characterization (ws : WsMode) (rm : Bool)
    (actual expected : FileTree) :
    (contentEntries ws rm actual expected).map ContentEntry.key =
      actual.map Prod.fst ∧
    ∀ e ∈ contentEntries ws rm actual expected,
      e.actualNorm = normalizeContent ws rm ((actual.lookup e.key).getD []) ∧
      e.expectedNorm = (expected.lookup e.key).map (normalizeContent ws rm) ∧
      e.label = normalizeLabel ws rm := by
  constructor
  · unfold contentEntries
    rw [List.map_map]
    simp
  · intro e he
    unfold contentEntries at he
    obtain ⟨k, hk, rfl⟩ := List.mem_map.mp he
    exact ⟨rfl, rfl, rfl⟩

/-- Witness for C4 (amended) at a concrete pair of trees. -/
theorem contentEntries_characterization_witness :
    (contentEntries WsMode.trim false [("a.txt", ['h'])]
        [("a.txt", ['h'])]).map ContentEntry.key =
      ([("a.txt", ['h'])] : FileTree).map Prod.fst :=
  (contentEntries_characterization WsMode.trim false
    [("a.txt", ['h'])] [("a.txt", ['h'])]).1

/-- C5 counterexample: with `actual = {b.txt}` and `expected = {c.txt}`
both set differences are non-empty, yet the check reports only the
missing-from-actual list — the extra-in-actual difference `[b.txt]`
never appears, refuting "both violation lists are reported together,
never short-circuiting". -/
theorem sameFiles_shortcircuit_cex :
    sameFilesCheck ["b.txt"] ["c.txt"] =
      SameFilesResult.failMissing ["c.txt"] ∧
    diffKeys ["b.txt"] ["c.txt"] = ["b.txt"] :=
  ⟨rfl, rfl⟩

/-- C5 (amended): the check first asserts the expected-minus-actual
difference empty and fails with only that list when it is not; only
when it is empty is the actual-minus-expected difference computed and
asserted; both empty means pass. -/
theorem sameFilesCheck_sequential (actualKeys expectedKeys : List String) :
    (diffKeys expectedKeys actualKeys ≠ [] →
      sameFilesCheck actualKeys expectedKeys =
        SameFilesResult.failMissing (diffKeys expectedKeys actualKeys)) ∧
    (diffKeys expectedKeys actualKeys = [] →
      diffKeys actualKeys expectedKeys ≠ [] →
      sameFilesCheck actualKeys expectedKeys =
        SameFilesResult.failExtra (diffKeys actualKeys expectedKeys)) ∧
    (diffKeys expectedKeys actualKeys = [] →
      diffKeys actualKeys expectedKeys = [] →
      sameFilesCheck actualKeys expectedKeys = SameFilesResult.pass) := by
  refine ⟨fun h1 => ?_, fun h1 h2 => ?_, fun h1 h2 => ?_⟩
  · unfold sameFilesCheck
    rw [if_neg (by simpa [List.isEmpty_iff] using h1)]
  · unfold sameFilesCheck
    rw [if_pos (by simpa [List.isEmpty_iff] using h1),
      if_neg (by simpa [List.isEmpty_iff] using h2)]
  · unfold sameFilesCheck
    rw [if_pos (by simpa [List.isEmpty_iff] using h1),
      if_pos (by simpa [List.isEmpty_iff] using h2)]

/-- Witness for C5 (amended) at concrete key sets. -/
theorem sameFilesCheck_sequential_witness :
    diffKeys ["c.txt"] ["b.txt"] ≠ [] ∧
    sameFilesCheck ["b.txt"] ["c.txt"] =
      SameFilesResult.failMissing (diffKeys ["c.txt"] ["b.txt"]) :=
  ⟨by decide, (sameFilesCheck_sequential ["b.txt"] ["c.txt"]).1 (by decide)⟩

/-- C6: when the expected-output root does not exist, the results suite
returns the skipped outcome — never an I/O error — and its result does
not depend on what scanning either tree would have produced (no
scanning is consumed). -/
theorem generateResults_skip (ws : WsMode) (rm : Bool)
    (s1 s2 s1' s2' : Except String FileTree) :
    generateResults false ws rm s1 s2 = GenerateOutcome.skipped ∧
    generateResults false ws rm s1 s2 = generateResults false ws rm s1' s2' :=
  ⟨rfl, rfl⟩

/-- C7 counterexample: editions are declared and the explicit hint
`bogus` matches nothing (no such path exists), yet the loader does not
fail with a no-valid-edition error — it silently falls back to
capability-based auto-detection and selects `node8`, behaving exactly
as if no hint had been given. -/
theorem loader_hint_fallback_cex :
    loader ["pkg/package.json"] "pkg" (some "bogus") [("node", 12)]
        ⟨some "index.js", some [⟨"node8", "index.js", [("node", 8)]⟩]⟩ =
      Except.ok ⟨"node8", some "index.js", ""⟩ ∧
    loader ["pkg/package.json"] "pkg" (some "bogus") [("node", 12)]
        ⟨some "index.js", some [⟨"node8", "index.js", [("node", 8)]⟩]⟩ =
      loader ["pkg/package.json"] "pkg" none [("node", 12)]
        ⟨some "index.js", some [⟨"node8", "index.js", [("node", 8)]⟩]⟩ :=
  ⟨rfl, rfl⟩

/-- C7 (amended): with a declared editions list, an explicit hint that
resolves to an existing path is used directly as the directory
(whether or not it matches any candidate), and a hint that resolves to
nothing makes the loader behave exactly as if no hint had been given
(fallback to automatic detection); no error is raised for an unmatched
hint. -/
theorem loader_hint_behavior (fs : List String) (cwd h : String)
    (caps : List (String × Nat)) (pkg : Pkg) (eds : List EditionDescriptor)
    (hpkg : resolvePath fs [cwd, "package.json"] ≠ "")
    (hed : pkg.editions = some eds) :
    (resolvePath fs [cwd, h] = "" →
      loader fs cwd (some h) caps pkg = loader fs cwd none caps pkg) ∧
    (resolvePath fs [cwd, h] ≠ "" →
      loader fs cwd (some h) caps pkg =
        Except.ok ⟨resolvePath fs [cwd, h], pkg.main,
          resolvePath fs [resolvePath fs [cwd, h], pkg.main.getD ""]⟩) := by
  constructor
  · intro hh
    simp [loader, hpkg, hed, hh, resolvePath_none_hint]
  · intro hh
    simp [loader, hpkg, hed, hh]

/-- Witness for C7 (amended): an unresolvable hint at a concrete input
makes the loader behave as with no hint at all. -/
theorem loader_hint_behavior_witness :
    resolvePath ["q/package.json"] ["q", "package.json"] ≠ "" ∧
    resolvePath ["q/package.json"] ["q", "missing"] = "" ∧
    loader ["q/package.json"] "q" (some "missing") []
        ⟨none, some [⟨"e1", "index.js", []⟩]⟩ =
      loader ["q/package.json"] "q" none [] ⟨none, some [⟨"e1", "index.js", []⟩]⟩ :=
  ⟨by decide, by decide,
    (loader_hint_behavior ["q/package.json"] "q" "missing" []
      ⟨none, some [⟨"e1", "index.js", []⟩]⟩ [⟨"e1", "index.js", []⟩]
      (by decide) rfl).1 (by decide)⟩

/-- C8 counterexample: at the spec's own example, the resolver the spec
describes (with extension probing) would return
`/pkg/edition-browser/index.mjs`, but the code's `resolve` probes the
joined path only once and returns "not found" — it never appends
extensions. -/
theorem resolve_no_extension_probe_cex :
    specResolve ["/pkg/edition-browser/index.mjs"]
        ["/pkg", "edition-browser", "index"] ["js", "mjs"] =
      "/pkg/edition-browser/index.mjs" ∧
    resolvePath ["/pkg/edition-browser/index.mjs"]
        ["/pkg", "edition-browser", "index"] = "" :=
  ⟨rfl, rfl⟩

/-- C8 (amended): the resolver joins its segments (an empty segment
yields "not found" immediately) and performs a single existence probe:
the joined path is returned exactly when it exists and "not found"
otherwise; no extension-based probing occurs. -/
theorem resolvePath_single_probe (fs : List String) (segs : List String) :
    ((∃ p ∈ segs, p = "") → resolvePath fs segs = "") ∧
    ((∀ p ∈ segs, p ≠ "") →
      resolvePath fs segs =
        if fs.contains (joinPath segs) then joinPath segs else "") := by
  constructor
  · rintro ⟨p, hp, he⟩
    unfold resolvePath
    rw [if_pos (by simp only [List.any_eq_true, decide_eq_true_eq]; exact ⟨p, hp, he⟩)]
  · intro hall
    unfold resolvePath
    rw [if_neg (by
      simp only [List.any_eq_true, decide_eq_true_eq, not_exists]
      exact fun p hp => hall p hp.1 hp.2)]

/-- Witness for C8 (amended) at a concrete filesystem. -/
theorem resolvePath_single_probe_witness :
    (∀ p ∈ ["/a", "b"], p ≠ "") ∧
    resolvePath ["/a/b"] ["/a", "b"] =
      (if (["/a/b"] : List String).contains (joinPath ["/a", "b"])
        then joinPath ["/a", "b"] else "") :=
  ⟨by decide, (resolvePath_single_probe ["/a/b"] ["/a", "b"]).2 (by decide)⟩

/-- C9: for a manifest that declares no editions list but declares a
main entry, the loader returns that entry for every hint and all
runtime capabilities, and — with no hint given — uses the package root
as the implicit variant's directory. -/
theorem loader_no_editions_identity (fs : List String) (cwd : String)
    (caps : List (String × Nat)) (pkg : Pkg) (m : String) (hint : Option String)
    (hpkg : resolvePath fs [cwd, "package.json"] ≠ "")
    (hed : pkg.editions = none) (hm : pkg.main = some m) :
    (∃ d, loader fs cwd hint caps pkg =
        Except.ok ⟨d, some m, resolvePath fs [d, m]⟩) ∧
    loader fs cwd none caps pkg =
      Except.ok ⟨cwd, some m, resolvePath fs [cwd, m]⟩ := by
  constructor
  · by_cases hh : resolvePath fs [cwd, hint.getD ""] = ""
    · exact ⟨cwd, by simp [loader, hpkg, hed, hm, hh]⟩
    · exact ⟨resolvePath fs [cwd, hint.getD ""],
        by simp [loader, hpkg, hed, hm, hh]⟩
  · simp [loader, hpkg, hed, hm, resolvePath_none_hint]

/-- Witness for C9 at a concrete editions-free manifest. -/
theorem loader_no_editions_identity_witness :
    resolvePath ["p/package.json"] ["p", "package.json"] ≠ "" ∧
    loader ["p/package.json"] "p" none [] ⟨some "index.js", none⟩ =
      Except.ok ⟨"p", some "index.js",
        resolvePath ["p/package.json"] ["p", "index.js"]⟩ :=
  ⟨by decide,
    (loader_no_editions_identity ["p/package.json"] "p" []
      ⟨some "index.js", none⟩ "index.js" none (by decide) rfl rfl).2⟩

/-- C10: a truthy legacy `removeWhitespace` flag makes the comparison
apply the remove-whitespace transform to both sides for every
whitespace mode — including mode trim — and skip the trim transform
entirely: the resulting content entries coincide with those of
whitespace mode remove. -/
theorem legacy_remove_flag_precedence (ws : WsMode)
    (actual expected : FileTree) (s : List Char) :
    normalizeContent ws true s = removeAllWs s ∧
    contentEntries ws true actual expected =
      contentEntries WsMode.remove false actual expected := by
  have h1 : normalizeContent ws true = normalizeContent WsMode.remove false := by
    funext x
    simp [normalizeContent]
  have h2 : normalizeLabel ws true = normalizeLabel WsMode.remove false := by
    simp [normalizeLabel]
  constructor
  · simp [normalizeContent]
  · unfold contentEntries
    rw [h1, h2]

example : trimNormalize "  a \n\n  b  ".toList = "a\nb".toList := by decide

example : removeAllWs " a \n b".toList = "ab".toList := by decide

example : specTrimComposition "x\n\n\n y".toList = "x\ny".toList := by decide

example :
    sameFilesCheck ["b.txt"] ["c.txt"] = SameFilesResult.failMissing ["c.txt"] := by
  decide

example :
    loader ["pkg/package.json"] "pkg" none [("node", 12)]
      ⟨some "index.js", some [⟨"node8", "index.js", [("node", 8)]⟩,
        ⟨"node10", "index.js", [("node", 10)]⟩]⟩ =
    Except.ok ⟨"node8", some "index.js", ""⟩ := rfl

end PluginTester
